import Mathlib

/-!
# Verification of the PDF manager cataloging core

Shallow embedding of the core functions of `pdfmanager.py` (class
`PDFManager` and the non-UI logic of `PDFManagerWindow`): the prefix
codec, the by-size scanner, catalog construction (`create_json_output`),
snapshot loading/saving, snapshot comparison (`compare_pdf_scans`), the
ToK entry list mutations, the ToK tree reconstruction (`load_tok_codes`)
and the safe-rename checks.  Filesystem, `os.walk` and `datetime` inputs
are modelled as explicit data passed to the functions.
-/

namespace PdfManager

/-- ASCII alphanumeric test, the character class `[a-zA-Z0-9]` of the
regex in `matches_pattern`. -/
def isAlnumAscii (c : Char) : Bool :=
  c.isAlpha || c.isDigit

/-- Whitespace as recognized by Python's `str.strip()` (ASCII subset;
the filenames involved only use the space character). -/
def isSpaceChar (c : Char) : Bool :=
  c = ' ' || c = '\t' || c = '\n' || c = '\r'

/-- Python `str.strip()` on a character list: drop whitespace from both
ends. -/
def strip (l : List Char) : List Char :=
  ((l.dropWhile isSpaceChar).reverse.dropWhile isSpaceChar).reverse

/-- The greedy matcher for the regex `^([a-zA-Z0-9] ){2,}`: consume as
many (alphanumeric, space) pairs as possible from the front, returning
the consumed run and the rest. -/
def takePairs : List Char → List Char × List Char
  | c1 :: c2 :: rest =>
    if isAlnumAscii c1 && (c2 = ' ') then
      let p := takePairs rest
      (c1 :: c2 :: p.1, p.2)
    else ([], c1 :: c2 :: rest)
  | l => ([], l)

/-- `PDFManager.matches_pattern`: if the filename starts with two or
more (alphanumeric, space) pairs, return the matched run with the
surrounding whitespace stripped (`match.group(0).strip()`), else
`none`. -/
def matches_pattern (filename : String) : Option String :=
  let p := takePairs filename.data
  if 4 ≤ p.1.length then some (String.mk (strip p.1)) else none

/-- The base filename extracted at the call sites of `matches_pattern`:
`filename[len(pattern):].strip()` where `pattern` is the stripped
match. -/
def baseAfterPattern (filename pattern : String) : String :=
  String.mk (strip (filename.data.drop pattern.length))

/-- `' '.join(tok_code)`: the characters of the code joined by single
spaces. -/
def spaceJoin : List Char → List Char
  | [] => []
  | [c] => [c]
  | c :: rest => c :: ' ' :: spaceJoin rest

/-- `PDFManagerWindow.add_tok_prefix_to_file` line
`formatted_code = ' '.join(tok_code) + ' '`. -/
def formatted_code (tok_code : String) : String :=
  String.mk (spaceJoin tok_code.data) ++ " "

/-- Python `code[:-1]`: the code with its last character removed. -/
def dropLastChar (s : String) : String :=
  String.mk s.data.dropLast

/-- Code-point lexicographic `≤` on character lists; this is the
ordering Python uses to compare strings (and agrees with Lean's
`String` order, stated here in a directly computable form). -/
def lexLe : List Char → List Char → Bool
  | [], _ => true
  | _ :: _, [] => false
  | a :: as, b :: bs =>
    if a < b then true
    else if b < a then false
    else lexLe as bs

/-- Python string `a <= b`. -/
def pyLe (a b : String) : Bool :=
  lexLe a.data b.data

/-! ## Timestamps

`scan_all_pdfs` obtains `datetime` values from the file's stat data and
`create_json_output` renders them with
`strftime('%Y-%m-%d %H:%M:%S')`. -/

structure DateTime where
  year : Nat
  month : Nat
  day : Nat
  hour : Nat
  minute : Nat
  second : Nat
deriving DecidableEq, Repr

/-- Zero-pad a number to two digits, as `%m`, `%d`, `%H`, `%M`, `%S`
do. -/
def pad2 (n : Nat) : String :=
  if n < 10 then "0" ++ toString n else toString n

/-- Zero-pad a year to four digits (`%Y`). -/
def pad4 (n : Nat) : String :=
  if n < 10 then "000" ++ toString n
  else if n < 100 then "00" ++ toString n
  else if n < 1000 then "0" ++ toString n
  else toString n

/-- `datetime.strftime('%Y-%m-%d %H:%M:%S')`. -/
def DateTime.format (t : DateTime) : String :=
  pad4 t.year ++ "-" ++ pad2 t.month ++ "-" ++ pad2 t.day ++ " " ++
    pad2 t.hour ++ ":" ++ pad2 t.minute ++ ":" ++ pad2 t.second

/-- Python `f"{n:,}"`: decimal digits grouped in threes by commas. -/
def commaGroup (digits : List Char) : List Char :=
  if _h : digits.length ≤ 3 then digits
  else commaGroup (digits.take (digits.length - 3)) ++
    (',' :: (digits.reverse.take 3).reverse)
termination_by digits.length
decreasing_by
  simp only [List.length_take]
  omega

/-- Python `f"{n:,}"` for a natural number. -/
def commaSep (n : Nat) : String :=
  String.mk (commaGroup (toString n).data)

/-! ## Filesystem scanning

`os.walk` is modelled by an explicit list of `(dirpath, filenames)`
entries given to the scanner; the per-file stat calls
(`os.path.getsize`, `os.path.getctime`, `os.path.getmtime`) are
modelled by functions from the full file path, returning `none` when
the call would raise `OSError`/`PermissionError` (in which case the
source's `except` clause skips the file). -/

structure WalkEntry where
  dirpath : String
  filenames : List String
deriving DecidableEq, Repr

/-- `os.path.join(dirpath, filename)` for POSIX paths. -/
def pathJoin (dir file : String) : String :=
  dir ++ "/" ++ file

/-- Python `str.lower()` (ASCII case folding, which covers the
characters involved). -/
def pyLower (s : String) : String :=
  String.mk (s.data.map Char.toLower)

/-- Python `str.endswith(suffix)`. -/
def pyEndsWith (s suffix : String) : Bool :=
  suffix.data.isSuffixOf s.data

/-- One element of the tuples produced by `scan_all_pdfs`:
`(base_filename, tok_prefix, folder, date_created, date_modified)`. -/
structure FileInfo where
  base_filename : String
  tok_prefix : String
  folder : String
  date_created : DateTime
  date_modified : DateTime
deriving DecidableEq, Repr

/-- The by-size dictionary built by `scan_all_pdfs`; Python dict
modelled as an association list in key insertion order. -/
abbrev PdfDict := List (Nat × List FileInfo)

/-- `pdf_dict[file_size] = [fi]` / `pdf_dict[file_size].append(fi)`:
append to the existing entry's list, or add a new key at the end. -/
def dictAppend (size : Nat) (fi : FileInfo) : PdfDict → PdfDict
  | [] => [(size, [fi])]
  | (s, fis) :: rest =>
    if s = size then (s, fis ++ [fi]) :: rest
    else (s, fis) :: dictAppend size fi rest

/-- The per-file body of `scan_all_pdfs` (its `try` block): identify
the ToK prefix and base filename, stat the file, and append the record
to the by-size dictionary; a failing stat call skips the file. -/
def scanOneFile (getsize : String → Option Nat)
    (getctime getmtime : String → Option DateTime)
    (dirpath filename : String) (d : PdfDict) : PdfDict :=
  if pyEndsWith (pyLower filename) ".pdf" then
    let filepath := pathJoin dirpath filename
    let (tokPfx, base_filename) :=
      match matches_pattern filename with
      | some p => (p, baseAfterPattern filename p)
      | none => ("", filename)
    match getsize filepath, getctime filepath, getmtime filepath with
    | some file_size, some date_created, some date_modified =>
        dictAppend file_size
          ⟨base_filename, tokPfx, dirpath, date_created, date_modified⟩ d
    | _, _, _ => d
  else d

/-- `PDFManager.scan_all_pdfs`: walk all directories and organize the
PDF files by size.  The folder recorded for each file is `dirpath`
exactly as yielded by the walk. -/
def scan_all_pdfs (walk : List WalkEntry) (getsize : String → Option Nat)
    (getctime getmtime : String → Option DateTime) : PdfDict :=
  walk.foldl
    (fun d e =>
      e.filenames.foldl
        (fun d f => scanOneFile getsize getctime getmtime e.dirpath f d) d)
    []

/-- `os.path.relpath(dir, base)` for a directory at or below `base`
(the only case arising from `os.walk(base)`): `"."` when equal,
otherwise the path with the `base ++ "/"` prefix removed. -/
def relpathUnder (dir base : String) : String :=
  if dir = base then "."
  else if (base ++ "/").data.isPrefixOf dir.data then
    String.mk (dir.data.drop (base.length + 1))
  else dir

/-- One result tuple of `scan_pdfs`:
`(pattern, filename_remainder, relative_folder, internal_title)`. -/
structure PatternedRecord where
  pattern : String
  filename_remainder : String
  relative_folder : String
  internal_title : String
deriving DecidableEq, Repr

/-- `PDFManager.scan_pdfs`: the patterned-only scan.  `title` models
`get_pdf_title` (reading the PDF's metadata).  The walk list is the
traversal after the `'RAG'` pruning done by mutating `dirs`. -/
def scan_pdfs (dropbox_path : String) (walk : List WalkEntry)
    (title : String → String) : List PatternedRecord :=
  walk.foldl
    (fun results e =>
      e.filenames.foldl
        (fun results file =>
          if pyEndsWith (pyLower file) ".pdf" then
            match matches_pattern file with
            | some pattern =>
                let filename_remainder := baseAfterPattern file pattern
                let full_path := pathJoin e.dirpath file
                let rel := relpathUnder e.dirpath dropbox_path
                let relative_folder := if rel = "." then "[root]" else rel
                results ++ [⟨pattern, filename_remainder, relative_folder,
                             title full_path⟩]
            | none => results
          else results) results)
    []

/-! ## Catalog construction (`create_json_output`)

The persisted catalog is a list of size groups
`{"size": .., "files": [{"filename", "ToK", "locations"}, ..]}`.
A loaded legacy document may lack the `"ToK"` key, hence the field is
optional; `create_json_output` always emits it. -/

structure Location where
  folder : String
  created : String
  modified : String
deriving DecidableEq, Repr

structure FileEntry where
  filename : String
  ToK : Option String
  locations : List Location
deriving DecidableEq, Repr

structure SizeGroup where
  size : Nat
  files : List FileEntry
deriving DecidableEq, Repr

/-- The per-base-filename aggregate of `create_json_output`:
`{'tok_prefixes': set(), 'locations': []}`.  The Python set of prefixes
is modelled as a duplicate-free list in insertion order (its iteration
order is irrelevant because the source sorts it before use). -/
structure NameData where
  tok_prefixes : List String
  locations : List Location
deriving DecidableEq, Repr

/-- Python `set.add`. -/
def setAdd (s : String) (l : List String) : List String :=
  if s ∈ l then l else l ++ [s]

/-- Python dict assignment `d[k] = v`: overwrite in place or append. -/
def dictInsert {κ ν : Type} [DecidableEq κ] (k : κ) (v : ν) :
    List (κ × ν) → List (κ × ν)
  | [] => [(k, v)]
  | (k', v') :: rest =>
    if k' = k then (k, v) :: rest else (k', v') :: dictInsert k v rest

/-- Python dict lookup `d.get(k)`. -/
def alookup {κ ν : Type} [DecidableEq κ] (k : κ) :
    List (κ × ν) → Option ν
  | [] => none
  | (k', v') :: rest => if k' = k then some v' else alookup k rest

/-- The keys of an association-list dictionary, in order. -/
def keysOf {κ ν : Type} (d : List (κ × ν)) : List κ :=
  d.map Prod.fst

/-- The inner grouping loop of `create_json_output`: build
`files_by_name` from one size group's records. -/
def groupByName (file_list : List FileInfo) : List (String × NameData) :=
  file_list.foldl
    (fun m fi =>
      let cur := (alookup fi.base_filename m).getD ⟨[], []⟩
      let withTok :=
        if fi.tok_prefix ≠ "" then setAdd fi.tok_prefix cur.tok_prefixes
        else cur.tok_prefixes
      let loc : Location :=
        ⟨fi.folder, fi.date_created.format, fi.date_modified.format⟩
      dictInsert fi.base_filename ⟨withTok, cur.locations ++ [loc]⟩ m)
    []

/-- `sorted(..)` on a list of strings, as Python compares strings. -/
def pySortStrings (l : List String) : List String :=
  List.insertionSort (fun a b => pyLe a b = true) l

/-- `';'.join(tok_prefixes)` after sorting, or `""` when the set is
empty. -/
def tokString (tok_prefixes : List String) : String :=
  String.intercalate ";" (pySortStrings tok_prefixes)

/-- The `files` array built from `files_by_name`. -/
def filesArray (m : List (String × NameData)) : List FileEntry :=
  m.map fun p => ⟨p.1, some (tokString p.2.tok_prefixes), p.2.locations⟩

/-- `PDFManager.create_json_output`: optionally restrict to duplicate
sizes, then emit one size object per size in ascending order. -/
def create_json_output (pdf_dict : PdfDict) (only_duplicates : Bool) :
    List SizeGroup :=
  let data_to_process :=
    if only_duplicates then pdf_dict.filter (fun p => 1 < p.2.length)
    else pdf_dict
  (List.insertionSort (fun a b : Nat => a ≤ b) (keysOf data_to_process)).map
    fun size =>
      let file_list := (alookup size data_to_process).getD []
      ⟨size, filesArray (groupByName file_list)⟩

/-! ## ToK entry list and its mutations -/

/-- One classification entry `{"prefix": code, "string": label}`. -/
structure TokEntry where
  code : String
  string : String
deriving DecidableEq, Repr

/-- `PDFManager.update_tok_entry`: rewrite the first entry whose
`prefix` equals `old_code` in place (no re-sort), returning whether one
was found. -/
def update_tok_entry (tok : List TokEntry) (old_code new_code new_label : String) :
    List TokEntry × Bool :=
  match tok with
  | [] => ([], false)
  | e :: rest =>
    if e.code = old_code then (⟨new_code, new_label⟩ :: rest, true)
    else
      let p := update_tok_entry rest old_code new_code new_label
      (e :: p.1, p.2)

/-- `PDFManager.add_tok_entry`: append the new entry, then sort the
list by `prefix` (Python's stable sort, rendered as a stable insertion
sort). -/
def add_tok_entry (tok : List TokEntry) (code label : String) : List TokEntry :=
  List.insertionSort (fun a b => pyLe a.code b.code = true)
    (tok ++ [⟨code, label⟩])

/-- `PDFManager.delete_tok_entry`: remove the first entry whose
`prefix` equals `code`, returning whether one was found. -/
def delete_tok_entry (tok : List TokEntry) (code : String) :
    List TokEntry × Bool :=
  match tok with
  | [] => ([], false)
  | e :: rest =>
    if e.code = code then (rest, true)
    else
      let p := delete_tok_entry rest code
      (e :: p.1, p.2)

/-- The sortedness invariant of the claim: the entry list is ascending
by the `prefix` field under Python's string order. -/
def SortedByPrefix (tok : List TokEntry) : Prop :=
  List.Sorted (fun a b => pyLe a.code b.code = true) tok

instance : DecidablePred SortedByPrefix := fun l =>
  inferInstanceAs (Decidable (List.Sorted _ l))

/-! ## Snapshot loading (`load_pdf_scan_json`)

The stored document is modelled as `Option String` (its content, or
`none` when the file does not exist) together with a `parse` function
standing for `json.load`, which returns `none` when the document cannot
be parsed (the case in which `json.load` raises and the source's
`except` clause prints the error). -/

/-- `PDFManager.load_pdf_scan_json`: `None` when the file does not
exist; on a parse error the exception is caught, the error is printed,
and `None` is returned as well. -/
def load_pdf_scan_json (content : Option String)
    (parse : String → Option (List SizeGroup)) : Option (List SizeGroup) :=
  match content with
  | none => none
  | some s =>
    match parse s with
    | some data => some data
    | none => none

/-! ## Snapshot comparison (`compare_pdf_scans`) -/

/-- The per-file lookup value built by `compare_pdf_scans`:
`{'ToK': file_entry.get('ToK', ''), 'locations': ..}`. -/
structure FData where
  tok : String
  locations : List Location
deriving DecidableEq, Repr

/-- `file_entry.get('ToK', '')` plus the locations: the conversion
applied while building the lookup structures (a missing `ToK` key in an
old-format document becomes the empty string). -/
def toFData (fe : FileEntry) : FData :=
  ⟨fe.ToK.getD "", fe.locations⟩

/-- Build the lookup structure
`{size: {filename: {'ToK': .., 'locations': ..}}}` from a catalog
document, with Python dict assignment semantics. -/
def buildLookup (j : List SizeGroup) :
    List (Nat × List (String × FData)) :=
  j.foldl
    (fun acc sg =>
      dictInsert sg.size
        (sg.files.foldl (fun m fe => dictInsert fe.filename (toFData fe) m) [])
        acc)
    []

/-- `f"NEW: {filename}{tok_display} (size: {size:,} bytes, {n} location(s))"`. -/
def msgNew (filename tok : String) (size n : Nat) : String :=
  "NEW: " ++ filename ++ (if tok ≠ "" then " [ToK: " ++ tok ++ "]" else "") ++
    " (size: " ++ commaSep size ++ " bytes, " ++ toString n ++ " location(s))"

/-- `f"REMOVED: {filename}{tok_display} (size: {size:,} bytes, was in {n} location(s))"`. -/
def msgRemoved (filename tok : String) (size n : Nat) : String :=
  "REMOVED: " ++ filename ++ (if tok ≠ "" then " [ToK: " ++ tok ++ "]" else "") ++
    " (size: " ++ commaSep size ++ " bytes, was in " ++ toString n ++ " location(s))"

/-- `f"TOK CHANGED: {filename} - '{old_tok}' -> '{new_tok}'"`. -/
def msgTokChanged (filename old_tok new_tok : String) : String :=
  "TOK CHANGED: " ++ filename ++ " - " ++ "\x27" ++ old_tok ++ "\x27 -> \x27" ++
    new_tok ++ "\x27"

/-- `f"MOVED/COPIED: {filename} now in: {folder}"`. -/
def msgMovedTo (filename folder : String) : String :=
  "MOVED/COPIED: " ++ filename ++ " now in: " ++ folder

/-- `f"MOVED/DELETED: {filename} no longer in: {folder}"`. -/
def msgMovedFrom (filename folder : String) : String :=
  "MOVED/DELETED: " ++ filename ++ " no longer in: " ++ folder

/-- `f"MODIFIED: {filename} in {folder} - dates changed"`. -/
def msgModified (filename folder : String) : String :=
  "MODIFIED: " ++ filename ++ " in " ++ folder ++ " - dates changed"

/-- Python set difference `a - b` over folder names gathered from
location lists (`{loc['folder'] for loc in ..}`): duplicates collapse,
membership in `b` is removed. -/
def folderDiff (a b : List String) : List String :=
  a.dedup.filter (fun f => f ∉ b)

/-- The body of `for filename in old_files & new_files`: compare ToK,
folder sets, and the dates of locations present on both sides. -/
def compareFileEntries (filename : String) (old_fd new_fd : FData) :
    List String :=
  let old_folders := old_fd.locations.map Location.folder
  let new_folders := new_fd.locations.map Location.folder
  (if old_fd.tok ≠ new_fd.tok then [msgTokChanged filename old_fd.tok new_fd.tok]
   else []) ++
  (folderDiff new_folders old_folders).map (msgMovedTo filename) ++
  (folderDiff old_folders new_folders).map (msgMovedFrom filename) ++
  new_fd.locations.flatMap (fun loc =>
    if loc.folder ∈ old_folders then
      match old_fd.locations.find? (fun l => l.folder = loc.folder) with
      | some old_loc =>
        if loc.created ≠ old_loc.created ∨ loc.modified ≠ old_loc.modified then
          [msgModified filename loc.folder]
        else []
      | none => []
    else [])

/-- The body of `for size in old_sizes & new_sizes`: new files at this
size, removed files at this size, then the per-file comparison of the
files present on both sides.  All accesses go through dictionary
lookups, as the source indexes the dicts. -/
def compareCommonSize (size : Nat) (old_files new_files : List (String × FData)) :
    List String :=
  ((keysOf new_files).filter (fun fn => (alookup fn old_files).isNone)).flatMap
    (fun fn =>
      match alookup fn new_files with
      | some fd => [msgNew fn fd.tok size fd.locations.length]
      | none => []) ++
  ((keysOf old_files).filter (fun fn => (alookup fn new_files).isNone)).flatMap
    (fun fn =>
      match alookup fn old_files with
      | some fd => [msgRemoved fn fd.tok size fd.locations.length]
      | none => []) ++
  ((keysOf old_files).filter (fun fn => (alookup fn new_files).isSome)).flatMap
    (fun fn =>
      match alookup fn old_files, alookup fn new_files with
      | some old_fd, some new_fd => compareFileEntries fn old_fd new_fd
      | _, _ => [])

/-- The result dictionary of `compare_pdf_scans`:
`{'has_changes': bool, 'differences': [str]}`. -/
structure CompareResult where
  has_changes : Bool
  differences : List String
deriving DecidableEq, Repr

/-- `PDFManager.compare_pdf_scans`: compare a previously saved catalog
document with a fresh scan.  Set iteration (`new_sizes - old_sizes`,
`old_sizes & new_sizes`, unordered in Python) is rendered in key
insertion order. -/
def compare_pdf_scans (old_json : Option (List SizeGroup)) (new_pdf_dict : PdfDict)
    (only_duplicates : Bool) : CompareResult :=
  match old_json with
  | none =>
    ⟨true, ["No previous JSON file found - this is the first scan"]⟩
  | some oj =>
    let new_json := create_json_output new_pdf_dict only_duplicates
    let old_data := buildLookup oj
    let new_data := buildLookup new_json
    let differences :=
      ((keysOf new_data).filter (fun s => (alookup s old_data).isNone)).flatMap
        (fun s =>
          match alookup s new_data with
          | some files => (keysOf files).flatMap (fun fn =>
              match alookup fn files with
              | some fd => [msgNew fn fd.tok s fd.locations.length]
              | none => [])
          | none => []) ++
      ((keysOf old_data).filter (fun s => (alookup s new_data).isNone)).flatMap
        (fun s =>
          match alookup s old_data with
          | some files => (keysOf files).flatMap (fun fn =>
              match alookup fn files with
              | some fd => [msgRemoved fn fd.tok s fd.locations.length]
              | none => [])
          | none => []) ++
      ((keysOf old_data).filter (fun s => (alookup s new_data).isSome)).flatMap
        (fun s =>
          match alookup s old_data, alookup s new_data with
          | some old_files, some new_files =>
              compareCommonSize s old_files new_files
          | _, _ => [])
    ⟨decide (0 < differences.length), differences⟩

/-! ## Snapshot saving (`save_pdf_scan_json`)

The live document and the backup folder are modelled as explicit state,
and the filesystem actions the function performs are recorded as an
event trace, so that the order of the backup copy and the write of the
new document is visible.  `shutil.copy2` failing (raising) is modelled
by the `copyOk` flag: when it is `false` the function aborts at that
point, leaving the state as it was. -/

structure ScanStore where
  live : Option String
  backups : List (String × String)
deriving DecidableEq, Repr

inductive SaveEvent where
  | mkdirBackupFolder : SaveEvent
  | copyToBackup (backup_filename old_content : String) : SaveEvent
  | writeLive (content : String) : SaveEvent
deriving DecidableEq, Repr

/-- The outcome of `save_pdf_scan_json`: the state after the call, the
trace of filesystem actions in order, the backup path if one was made,
and whether the call completed (`false` = the backup copy raised and
the save was aborted). -/
structure SaveOutcome where
  store : ScanStore
  trace : List SaveEvent
  backup_name : Option String
  completed : Bool
deriving DecidableEq, Repr

/-- `PDFManager.save_pdf_scan_json`: serialize the catalog (`dump`
stands for `json.dump` of `create_json_output`'s result), backing the
existing document up first when `backup_old` is set. -/
def save_pdf_scan_json (st : ScanStore) (pdf_dict : PdfDict)
    (only_duplicates : Bool) (backup_old : Bool)
    (dump : List SizeGroup → String) (timestamp : String) (copyOk : Bool) :
    SaveOutcome :=
  let json_data := create_json_output pdf_dict only_duplicates
  let content := dump json_data
  match backup_old, st.live with
  | true, some old_content =>
    let backup_filename := "pdf-files-by-size_" ++ timestamp ++ ".json"
    if copyOk then
      ⟨⟨some content, st.backups ++ [(backup_filename, old_content)]⟩,
       [.mkdirBackupFolder, .copyToBackup backup_filename old_content,
        .writeLive content],
       some backup_filename, true⟩
    else
      ⟨st, [.mkdirBackupFolder], none, false⟩
  | _, _ =>
    ⟨⟨some content, st.backups⟩, [.writeLive content], none, true⟩

/-! ## ToK tree reconstruction (`load_tok_codes`)

The Qt tree built by `PDFManagerWindow.load_tok_codes` is modelled as a
rose forest.  `addChild` on the item found in `code_to_item` is
rendered as insertion under the node carrying the parent code; the
entry codes are unique in the data model, so at most one node matches. -/

inductive TokTree where
  | node (code : String) (label : String) (children : List TokTree) : TokTree
deriving Repr

/-- The code at the root of a tree. -/
def codeOfTree : TokTree → String
  | .node c _ _ => c

mutual

/-- Attach `child` as the last child of each node whose code is `p`
(`parent_item.addChild(tree_item)`; with unique codes there is at most
one such node). -/
def addUnderTree (p : String) (child : TokTree) : TokTree → TokTree
  | .node code label children =>
    if code = p then .node code label (children ++ [child])
    else .node code label (addUnderForest p child children)

def addUnderForest (p : String) (child : TokTree) :
    List TokTree → List TokTree
  | [] => []
  | t :: ts => addUnderTree p child t :: addUnderForest p child ts

end

mutual

/-- All codes stored in a tree, root first. -/
def treeCodes : TokTree → List String
  | .node c _ ch => c :: forestCodes ch

def forestCodes : List TokTree → List String
  | [] => []
  | t :: ts => treeCodes t ++ forestCodes ts

end

mutual

/-- All `(child code, parent code)` pairs of a tree. -/
def treePairs : TokTree → List (String × String)
  | .node c _ ch => pairsUnder c ch

def pairsUnder (p : String) : List TokTree → List (String × String)
  | [] => []
  | t :: ts => (codeOfTree t, p) :: treePairs t ++ pairsUnder p ts

end

/-- All `(child code, parent code)` pairs of a forest (roots have no
pair). -/
def forestPairs : List TokTree → List (String × String)
  | [] => []
  | t :: ts => treePairs t ++ forestPairs ts

/-- The codes of the top-level (root) nodes of a forest. -/
def rootCodes (f : List TokTree) : List String :=
  f.map codeOfTree

/-- The tree-construction loop of `PDFManagerWindow.load_tok_codes`:
sort the entries by code, then, for each entry, attach it under the
already-placed node carrying its code with the last character removed
if the code is longer than one character and such a node exists,
otherwise add it as a new top-level item. -/
def load_tok_codes (entries : List TokEntry) : List TokTree :=
  let sorted_items :=
    List.insertionSort (fun a b => pyLe a.code b.code = true) entries
  sorted_items.foldl
    (fun forest e =>
      let tree_item : TokTree := .node e.code e.string []
      if 1 < e.code.length ∧ dropLastChar e.code ∈ forestCodes forest then
        addUnderForest (dropLastChar e.code) tree_item forest
      else forest ++ [tree_item])
    []

/-- The parent rule as the specification states it, relative to the
codes already processed: walking the (sorted) code list in order, a
code of length `> 1` whose last-character truncation is already placed
gets exactly the pair `(code, truncation)`, every other code gets no
pair. -/
def rulePairs (seen : List String) : List String → List (String × String)
  | [] => []
  | c :: rest =>
    (if 1 < c.length ∧ dropLastChar c ∈ seen then [(c, dropLastChar c)]
     else []) ++ rulePairs (c :: seen) rest

/-- The root rule as the specification states it: the codes that do not
receive a parent become roots, in processing order. -/
def ruleRoots (seen : List String) : List String → List String
  | [] => []
  | c :: rest =>
    (if 1 < c.length ∧ dropLastChar c ∈ seen then [] else [c]) ++
      ruleRoots (c :: seen) rest

/-! ## Safe renaming

`add_tok_prefix_to_file` and `on_file_item_changed` both check, in
order, that the source exists and that the destination does not, before
calling `os.rename`.  The current directory's filesystem is modelled as
the list of filenames present; the result is the error reported (if
any) and the directory content afterwards. -/

inductive RenameError where
  /-- "File '..' not found on disk." / "File '..' not found." -/
  | sourceNotFound : RenameError
  /-- "A file named '..' already exists." -/
  | destinationExists : RenameError
  /-- "Filename cannot be empty." -/
  | emptyFilename : RenameError
deriving DecidableEq, Repr

/-- `os.rename` within one directory: the old name disappears, the new
name appears. -/
def osRename (fs : List String) (old new : String) : List String :=
  fs.erase old ++ [new]

/-- The rename performed by `PDFManagerWindow.add_tok_prefix_to_file`
(after the UI selection steps): build the new name by prepending the
formatted ToK code, then check existence of source and absence of
destination before renaming. -/
def add_tok_prefix_to_file (fs : List String)
    (tok_code actual_old_filename : String) :
    Option RenameError × List String :=
  let new_filename := formatted_code tok_code ++ actual_old_filename
  if actual_old_filename ∉ fs then (some .sourceNotFound, fs)
  else if new_filename ∈ fs then (some .destinationExists, fs)
  else (none, osRename fs actual_old_filename new_filename)

/-- The rename performed by `PDFManagerWindow.on_file_item_changed`
when a filename cell is edited: an empty name is rejected, an unchanged
name is a no-op, then the same two existence checks precede the
rename. -/
def on_file_item_changed (fs : List String) (old_filename new_filename : String) :
    Option RenameError × List String :=
  if new_filename = "" then (some .emptyFilename, fs)
  else if old_filename = new_filename then (none, fs)
  else if old_filename ∉ fs then (some .sourceNotFound, fs)
  else if new_filename ∈ fs then (some .destinationExists, fs)
  else (none, osRename fs old_filename new_filename)

/-! ## Auxiliary notions used in the statements -/

/-- Whether a character list begins with one (alphanumeric, space)
pair, i.e. whether the prefix regex could consume one more pair here. -/
def startsWithPair : List Char → Bool
  | c1 :: c2 :: _ => isAlnumAscii c1 && (c2 = ' ')
  | _ => false

/-- A code rendered as consecutive (character, space) pairs. -/
def pairsOf (code : List Char) : List Char :=
  code.flatMap fun c => [c, ' ']

/-- The space-free form of a parsed prefix (its separator spaces
removed), i.e. the classification code as stored in the ToK
document. -/
def removeSpaces (s : String) : String :=
  String.mk (s.data.filter (fun c => ¬ c = ' '))

/-- Whether every file entry of a catalog document keeps, for each
folder, a single created/modified timestamp pair (no two locations of
one entry in the same folder with different dates). -/
def ConsistentFolderDates (j : List SizeGroup) : Prop :=
  ∀ sg ∈ j, ∀ fe ∈ sg.files, ∀ l1 ∈ fe.locations, ∀ l2 ∈ fe.locations,
    l1.folder = l2.folder → l1.created = l2.created ∧ l1.modified = l2.modified

instance : DecidablePred ConsistentFolderDates := fun j => by
  unfold ConsistentFolderDates
  infer_instance

/-! ## Concrete inputs used by the witnesses and counterexamples -/

/-- A fixed timestamp. -/
def tEx : DateTime := ⟨2024, 1, 2, 3, 4, 5⟩

/-- A second timestamp, differing in the seconds field. -/
def tEx2 : DateTime := ⟨2024, 1, 2, 3, 4, 6⟩

/-- The walk of the end-to-end duplicate scenario: `"A B report.pdf"`
in `folder1` and `"report.pdf"` in `folder2`, both of size 100. -/
def walkDup : List WalkEntry :=
  [⟨"folder1", ["A B report.pdf"]⟩, ⟨"folder2", ["report.pdf"]⟩]

/-- The scan of `walkDup` (all sizes 100, all dates `tEx`). -/
def scanDup : PdfDict :=
  scan_all_pdfs walkDup (fun _ => some 100) (fun _ => some tEx)
    (fun _ => some tEx)

/-- A walk with two same-size files in one folder whose base filenames
coincide after prefix stripping but whose modification times differ. -/
def walkSameFolder : List WalkEntry :=
  [⟨"f", ["A B report.pdf", "X Y report.pdf"]⟩]

/-- The scan of `walkSameFolder`. -/
def scanSameFolder : PdfDict :=
  scan_all_pdfs walkSameFolder (fun _ => some 100) (fun _ => some tEx)
    (fun p => if p = "f/A B report.pdf" then some tEx else some tEx2)

/-! # Theorems -/

/-- An invariant holding of the initial accumulator and preserved by
every step holds of a left fold. -/
theorem foldl_invariant {α β : Type} (f : β → α → β) (P : β → Prop) :
    ∀ (l : List α) (init : β), P init → (∀ b, ∀ a ∈ l, P b → P (f b a)) →
      P (l.foldl f init)
  | [], _, h, _ => h
  | a :: l, init, h, hstep =>
    foldl_invariant f P l (f init a) (hstep init a (by simp) h)
      (fun b a' ha' hb => hstep b a' (by simp [ha']) hb)

/-! ## C1 — end-to-end duplicate cataloging -/

/-- C1, counterexample: scanning `"A B report.pdf"` (size 100) in
`folder1` and `"report.pdf"` (size 100) in `folder2` with
duplicates-only filtering produces a single file entry whose `ToK`
field is `"A B"` — the matched prefix with its internal space kept —
and not `"AB"` as the claim states. -/
theorem scanDup_tok_is_not_AB :
    (create_json_output scanDup true).flatMap
        (fun sg => sg.files.map (fun fe => fe.ToK)) = [some "A B"] ∧
      some "A B" ≠ some ("AB" : String) := by
  constructor
  · decide
  · decide

/-- C1, amended: scanning `"A B report.pdf"` (size 100) in `folder1`
and `"report.pdf"` (size 100) in `folder2` with duplicates-only
filtering yields exactly one size group (size 100) with exactly one
base-filename entry `"report.pdf"` whose `ToK` field equals `"A B"`
(the recognized prefix as matched, spaces included) and whose location
list is exactly `folder1` then `folder2`. -/
theorem scanDup_catalog_shape :
    create_json_output scanDup true =
      [⟨100, [⟨"report.pdf", some "A B",
        [⟨"folder1", "2024-01-02 03:04:05", "2024-01-02 03:04:05"⟩,
         ⟨"folder2", "2024-01-02 03:04:05", "2024-01-02 03:04:05"⟩]⟩]⟩] := by
  decide

/-! ## C2 — catalog load contract -/

/-- C2, counterexample: at a path where the document exists
(`content = some ..`) but cannot be parsed (`parse` fails),
`load_pdf_scan_json` returns `none` — the caught exception is printed,
no `FormatError` (or any error) is propagated, contradicting the
claim that such a load must fail rather than return none. -/
theorem load_unparseable_returns_none :
    load_pdf_scan_json (some "not a catalog") (fun _ => none) = none := rfl

/-- C2, amended: `load_pdf_scan_json` returns none when the document
does not exist, and ALSO returns none (after printing the error) when
the document exists but cannot be parsed; a successfully parsed
document is returned as is.  No error is raised to the caller in any
case. -/
theorem load_pdf_scan_json_spec (parse : String → Option (List SizeGroup)) :
    load_pdf_scan_json none parse = none ∧
    (∀ s, parse s = none → load_pdf_scan_json (some s) parse = none) ∧
    (∀ s j, parse s = some j → load_pdf_scan_json (some s) parse = some j) := by
  refine ⟨rfl, fun s h => ?_, fun s j h => ?_⟩ <;>
    simp [load_pdf_scan_json, h]

/-- C2, witness for the amended theorem at concrete inputs. -/
theorem load_pdf_scan_json_spec_witness :
    load_pdf_scan_json (some "bad") (fun _ => none) = none ∧
      load_pdf_scan_json (some "[]") (fun _ => some []) = some [] :=
  ⟨(load_pdf_scan_json_spec (fun _ => none)).2.1 "bad" rfl,
   (load_pdf_scan_json_spec (fun _ => some [])).2.2 "[]" [] rfl⟩

/-! ## C4 — backup before overwrite -/

/-- C4: when `backup_old` is set and a document exists (`st.live` is
`some old_content`), a successful save copies the prior document's
exact content into the backup before writing the new document (the
event trace is mkdir, copy, write in that order, and the backup pair
holds `old_content` verbatim), while a failed backup copy aborts the
save with the store unchanged — in particular the live document is
still `old_content` and no write event occurs. -/
theorem save_backup_discipline (st : ScanStore) (d : PdfDict) (b : Bool)
    (dump : List SizeGroup → String) (ts old_content : String)
    (h : st.live = some old_content) :
    (save_pdf_scan_json st d b true dump ts true =
      ⟨⟨some (dump (create_json_output d b)),
        st.backups ++ [("pdf-files-by-size_" ++ ts ++ ".json", old_content)]⟩,
       [.mkdirBackupFolder,
        .copyToBackup ("pdf-files-by-size_" ++ ts ++ ".json") old_content,
        .writeLive (dump (create_json_output d b))],
       some ("pdf-files-by-size_" ++ ts ++ ".json"), true⟩) ∧
    (save_pdf_scan_json st d b true dump ts false =
      ⟨st, [.mkdirBackupFolder], none, false⟩) := by
  obtain ⟨live, backups⟩ := st
  cases h
  exact ⟨rfl, rfl⟩

/-- C4, witness at a concrete store and catalog. -/
theorem save_backup_discipline_witness :
    (save_pdf_scan_json ⟨some "old", []⟩ [] true true (fun _ => "new") "T" true =
      ⟨⟨some "new", [("pdf-files-by-size_T.json", "old")]⟩,
       [.mkdirBackupFolder, .copyToBackup "pdf-files-by-size_T.json" "old",
        .writeLive "new"],
       some "pdf-files-by-size_T.json", true⟩) ∧
    (save_pdf_scan_json ⟨some "old", []⟩ [] true true (fun _ => "new") "T" false =
      ⟨⟨some "old", []⟩, [.mkdirBackupFolder], none, false⟩) :=
  save_backup_discipline ⟨some "old", []⟩ [] true (fun _ => "new") "T" "old" rfl

/-! ## C9 — safe rename preconditions -/

/-- C9: both rename paths check the source's existence and the
destination's absence before mutating anything; a missing source and an
existing destination are reported as distinct errors, and in either
failure case the directory content is returned unchanged. -/
theorem rename_precondition_checks (fs : List String)
    (tok_code old new : String) :
    (old ∉ fs → add_tok_prefix_to_file fs tok_code old =
      (some .sourceNotFound, fs)) ∧
    (old ∈ fs → formatted_code tok_code ++ old ∈ fs →
      add_tok_prefix_to_file fs tok_code old = (some .destinationExists, fs)) ∧
    (new ≠ "" → old ≠ new → old ∉ fs →
      on_file_item_changed fs old new = (some .sourceNotFound, fs)) ∧
    (new ≠ "" → old ≠ new → old ∈ fs → new ∈ fs →
      on_file_item_changed fs old new = (some .destinationExists, fs)) ∧
    RenameError.sourceNotFound ≠ RenameError.destinationExists := by
  refine ⟨fun h => ?_, fun h1 h2 => ?_, fun h0 he h => ?_,
    fun h0 he h1 h2 => ?_, by decide⟩
  · simp [add_tok_prefix_to_file, h]
  · simp [add_tok_prefix_to_file, h1, h2]
  · simp [on_file_item_changed, h0, he, h]
  · simp [on_file_item_changed, h0, he, h1, h2]

/-- C9, witness: a missing source and an existing destination at
concrete directory contents. -/
theorem rename_precondition_checks_witness :
    (add_tok_prefix_to_file ["x.pdf"] "AB" "y.pdf" =
      (some .sourceNotFound, ["x.pdf"])) ∧
    (add_tok_prefix_to_file ["x.pdf", "A B x.pdf"] "AB" "x.pdf" =
      (some .destinationExists, ["x.pdf", "A B x.pdf"])) :=
  ⟨(rename_precondition_checks ["x.pdf"] "AB" "y.pdf" "z").1 (by decide),
   (rename_precondition_checks ["x.pdf", "A B x.pdf"] "AB" "x.pdf" "z").2.1
     (by decide) (by decide)⟩

/-! ## C3 — sortedness of the classification entry list -/

/-- The code-point lexicographic order is total. -/
theorem lexLe_total : ∀ a b : List Char, lexLe a b = true ∨ lexLe b a = true
  | [], _ => Or.inl rfl
  | _ :: _, [] => Or.inr rfl
  | a :: as, b :: bs => by
    rcases lt_trichotomy a b with h | h | h
    · left
      simp [lexLe, h]
    · subst h
      rcases lexLe_total as bs with ih | ih
      · left
        simp [lexLe, lt_irrefl, ih]
      · right
        simp [lexLe, lt_irrefl, ih]
    · right
      simp [lexLe, h]

/-- The code-point lexicographic order is transitive. -/
theorem lexLe_trans : ∀ a b c : List Char,
    lexLe a b = true → lexLe b c = true → lexLe a c = true
  | [], _, _, _, _ => rfl
  | _ :: _, [], _, h, _ => by simp [lexLe] at h
  | _ :: _, _ :: _, [], _, h => by simp [lexLe] at h
  | a :: as, b :: bs, c :: cs, h1, h2 => by
    simp only [lexLe] at h1 h2 ⊢
    rcases lt_trichotomy a b with hab | hab | hab
    · rcases lt_trichotomy b c with hbc | hbc | hbc
      · rw [if_pos (lt_trans hab hbc)]
      · subst hbc
        rw [if_pos hab]
      · rw [if_neg (asymm hbc), if_pos hbc] at h2
        simp at h2
    · subst hab
      rcases lt_trichotomy a c with hac | hac | hac
      · rw [if_pos hac]
      · subst hac
        rw [if_neg (lt_irrefl a), if_neg (lt_irrefl a)] at h1 h2 ⊢
        exact lexLe_trans as bs cs h1 h2
      · rw [if_neg (asymm hac), if_pos hac] at h2
        simp at h2
    · rw [if_neg (asymm hab), if_pos hab] at h1
      simp at h1

/-- The result of `delete_tok_entry` is a sublist of the input. -/
theorem delete_tok_entry_sublist :
    ∀ (tok : List TokEntry) (code : String),
      List.Sublist (delete_tok_entry tok code).1 tok
  | [], _ => List.Sublist.refl _
  | e :: rest, code => by
    by_cases h : e.code = code
    · simp only [delete_tok_entry, h, if_true]
      exact List.sublist_cons_self e rest
    · simpa [delete_tok_entry, h] using
        (delete_tok_entry_sublist rest code).cons₂ e

/-- C3, counterexample: on the sorted list `[{a,x},{b,y}]`, updating
the entry with code `a` to code `z` rewrites it in place without
re-sorting, leaving `[{z,x2},{b,y}]`, which is not sorted by code —
so the update operation does not preserve the sorted invariant the
claim asserts for every mutation. -/
theorem update_tok_entry_breaks_sort :
    SortedByPrefix [⟨"a", "x"⟩, ⟨"b", "y"⟩] ∧
      (update_tok_entry [⟨"a", "x"⟩, ⟨"b", "y"⟩] "a" "z" "x2").1 =
        [⟨"z", "x2"⟩, ⟨"b", "y"⟩] ∧
      ¬ SortedByPrefix (update_tok_entry [⟨"a", "x"⟩, ⟨"b", "y"⟩] "a" "z" "x2").1 := by
  refine ⟨by decide, by decide, by decide⟩

/-- C3, amended: adding an entry always leaves the list sorted by code
(the source re-sorts after appending), and deleting an entry preserves
sortedness; updating an entry rewrites it in place and need not
preserve sortedness. -/
theorem add_delete_keep_sorted (tok : List TokEntry)
    (code label del_code : String) (h : SortedByPrefix tok) :
    SortedByPrefix (add_tok_entry tok code label) ∧
      SortedByPrefix (delete_tok_entry tok del_code).1 := by
  constructor
  · haveI : IsTotal TokEntry (fun a b => pyLe a.code b.code = true) :=
      ⟨fun a b => lexLe_total a.code.data b.code.data⟩
    haveI : IsTrans TokEntry (fun a b => pyLe a.code b.code = true) :=
      ⟨fun a b c => lexLe_trans a.code.data b.code.data c.code.data⟩
    exact List.sorted_insertionSort _ _
  · exact h.sublist (delete_tok_entry_sublist tok del_code)

/-- C3, witness for the amended theorem at a concrete sorted list. -/
theorem add_delete_keep_sorted_witness :
    SortedByPrefix (add_tok_entry [⟨"a", "x"⟩, ⟨"b", "y"⟩] "c" "z") ∧
      SortedByPrefix (delete_tok_entry [⟨"a", "x"⟩, ⟨"b", "y"⟩] "a").1 :=
  add_delete_keep_sorted [⟨"a", "x"⟩, ⟨"b", "y"⟩] "c" "z" "a" (by decide)

/-! ## C6 — folder recorded by the raw by-size scan -/

/-- C6, counterexample: the raw by-size scan records the walked
`dirpath` verbatim: visiting the scan root `/home/u/Dropbox` itself,
the produced record's folder is `/home/u/Dropbox`, not the literal
root token `[root]` (nor any root-relative path). -/
theorem scan_all_pdfs_folder_absolute :
    scan_all_pdfs [⟨"/home/u/Dropbox", ["report.pdf"]⟩] (fun _ => some 5)
        (fun _ => some tEx) (fun _ => some tEx) =
      [(5, [⟨"report.pdf", "", "/home/u/Dropbox", tEx, tEx⟩])] ∧
      "/home/u/Dropbox" ≠ "[root]" := by
  constructor
  · decide
  · decide

/-- Every record of `dictAppend size fi d` is a record of `d` or is
`fi` itself. -/
theorem dictAppend_records (P : FileInfo → Prop) :
    ∀ (d : PdfDict) (size : Nat) (fi : FileInfo),
      (∀ p ∈ d, ∀ x ∈ p.2, P x) → P fi →
      ∀ p ∈ dictAppend size fi d, ∀ x ∈ p.2, P x
  | [], size, fi, _, hfi => by
    simp only [dictAppend]
    rintro p hp x hx
    simp only [List.mem_singleton] at hp
    subst hp
    have hx' : x = fi := by simpa using hx
    rw [hx']
    exact hfi
  | (s, fis) :: rest, size, fi, hd, hfi => by
    simp only [dictAppend]
    by_cases h : s = size
    · simp only [h, if_true]
      rintro p hp x hx
      rcases List.mem_cons.mp hp with hp | hp
      · subst hp
        rcases List.mem_append.mp hx with hx | hx
        · exact hd (s, fis) (by simp) x hx
        · have hx' : x = fi := by simpa using hx
          rw [hx']
          exact hfi
      · exact hd p (by simp [hp]) x hx
    · simp only [h, if_false]
      rintro p hp x hx
      rcases List.mem_cons.mp hp with hp | hp
      · subst hp
        exact hd (s, fis) (by simp) x hx
      · exact dictAppend_records P rest size fi
          (fun q hq y hy => hd q (by simp [hq]) y hy) hfi p hp x hx

/-- Every record of `scanOneFile .. dirpath f d` is a record of `d` or
has folder `dirpath`. -/
theorem scanOneFile_records (P : FileInfo → Prop)
    (gs : String → Option Nat) (gc gm : String → Option DateTime)
    (dirpath f : String) (d : PdfDict)
    (hd : ∀ p ∈ d, ∀ x ∈ p.2, P x)
    (hdir : ∀ fi : FileInfo, fi.folder = dirpath → P fi) :
    ∀ p ∈ scanOneFile gs gc gm dirpath f d, ∀ x ∈ p.2, P x := by
  unfold scanOneFile
  split
  · cases hgs : gs (pathJoin dirpath f) <;>
      cases hgc : gc (pathJoin dirpath f) <;>
        cases hgm : gm (pathJoin dirpath f) <;>
          simp only [hgs, hgc, hgm] <;>
          first
          | exact hd
          | exact dictAppend_records P d _ _ hd (hdir _ rfl)
  · exact hd

/-- C6, amended: the raw by-size scan records, for every file, the
walked `dirpath` verbatim as the folder (hence an absolute path when
the walk yields absolute paths, and never the `[root]` token), while
the patterned scan `scan_pdfs` is the one that records the folder
relative to the scan root, with the literal `[root]` token when the
directory equals the root. -/
theorem scan_folder_recording (walk : List WalkEntry)
    (gs : String → Option Nat) (gc gm : String → Option DateTime)
    (root : String) (title : String → String) :
    (∀ p ∈ scan_all_pdfs walk gs gc gm, ∀ fi ∈ p.2,
      fi.folder ∈ walk.map WalkEntry.dirpath) ∧
    (∀ r ∈ scan_pdfs root walk title, ∃ e ∈ walk,
      r.relative_folder =
        if relpathUnder e.dirpath root = "." then "[root]"
        else relpathUnder e.dirpath root) := by
  constructor
  · unfold scan_all_pdfs
    refine foldl_invariant _ (fun d : PdfDict => ∀ p ∈ d, ∀ fi ∈ p.2,
      fi.folder ∈ walk.map WalkEntry.dirpath) walk [] (by simp) ?_
    intro d e he hd
    refine foldl_invariant _ (fun d : PdfDict => ∀ p ∈ d, ∀ fi ∈ p.2,
      fi.folder ∈ walk.map WalkEntry.dirpath) e.filenames d hd ?_
    intro d' f _ hd'
    exact scanOneFile_records _ gs gc gm e.dirpath f d' hd'
      (fun fi hfi => by
        rw [hfi]
        exact List.mem_map.mpr ⟨e, he, rfl⟩)
  · unfold scan_pdfs
    refine foldl_invariant _
      (fun rs : List PatternedRecord => ∀ r ∈ rs, ∃ e ∈ walk,
        r.relative_folder =
          if relpathUnder e.dirpath root = "." then "[root]"
          else relpathUnder e.dirpath root) walk [] (by simp) ?_
    intro rs e he hrs
    refine foldl_invariant _
      (fun rs : List PatternedRecord => ∀ r ∈ rs, ∃ e ∈ walk,
        r.relative_folder =
          if relpathUnder e.dirpath root = "." then "[root]"
          else relpathUnder e.dirpath root) e.filenames rs hrs ?_
    intro rs' f _ hrs' r hr
    dsimp only at hr
    split at hr
    · rcases hmp : matches_pattern f with _ | pat
      · rw [hmp] at hr
        exact hrs' r hr
      · rw [hmp] at hr
        rcases List.mem_append.mp hr with hr | hr
        · exact hrs' r hr
        · rw [List.mem_singleton.mp hr]
          exact ⟨e, he, rfl⟩
    · exact hrs' r hr

/-- C6, witness at a concrete walk with one subdirectory and the root
itself. -/
theorem scan_folder_recording_witness :
    (∀ p ∈ scan_all_pdfs [⟨"/d", ["a.pdf"]⟩, ⟨"/d/sub", ["b.pdf"]⟩]
        (fun _ => some 5) (fun _ => some tEx) (fun _ => some tEx),
      ∀ fi ∈ p.2, fi.folder ∈
        [⟨"/d", ["a.pdf"]⟩, ⟨"/d/sub", ["b.pdf"]⟩].map WalkEntry.dirpath) ∧
    (∀ r ∈ scan_pdfs "/d" [⟨"/d", ["A B a.pdf"]⟩, ⟨"/d/sub", ["B C b.pdf"]⟩]
        (fun _ => ""),
      ∃ e ∈ ([⟨"/d", ["A B a.pdf"]⟩, ⟨"/d/sub", ["B C b.pdf"]⟩] : List WalkEntry),
      r.relative_folder =
        if relpathUnder e.dirpath "/d" = "." then "[root]"
        else relpathUnder e.dirpath "/d") :=
  ⟨(scan_folder_recording [⟨"/d", ["a.pdf"]⟩, ⟨"/d/sub", ["b.pdf"]⟩]
      (fun _ => some 5) (fun _ => some tEx) (fun _ => some tEx) "/d"
      (fun _ => "")).1,
   (scan_folder_recording [⟨"/d", ["A B a.pdf"]⟩, ⟨"/d/sub", ["B C b.pdf"]⟩]
      (fun _ => some 5) (fun _ => some tEx) (fun _ => some tEx) "/d"
      (fun _ => "")).2⟩

/-! ## C10 — legacy documents without a ToK field -/

/-- A classification-change message begins with the character `T`. -/
theorem msgTokChanged_head (fn a b : String) :
    (msgTokChanged fn a b).data.head? = some 'T' := rfl

/-- When the two ToK strings agree, every message the per-file
comparison emits is a move or date message, which begins with `M`. -/
theorem compareFileEntries_same_tok_heads (fn : String) (o n : FData)
    (h : o.tok = n.tok) :
    ∀ x ∈ compareFileEntries fn o n, x.data.head? = some 'M' := by
  intro x hx
  unfold compareFileEntries at hx
  rw [if_neg (by simp [h])] at hx
  simp only [List.nil_append, List.mem_append] at hx
  rcases hx with (hx | hx) | hx
  · rcases List.mem_map.mp hx with ⟨f, _, rfl⟩
    rfl
  · rcases List.mem_map.mp hx with ⟨f, _, rfl⟩
    rfl
  · rcases List.mem_flatMap.mp hx with ⟨loc, _, hloc⟩
    split at hloc
    · split at hloc
      · split at hloc
        · rw [List.mem_singleton.mp hloc]
          rfl
        · simp at hloc
      · simp at hloc
    · simp at hloc

/-- When the two ToK strings differ, the per-file comparison emits the
classification-change message. -/
theorem tok_msg_in_compareFileEntries (fn : String) (o n : FData)
    (hne : o.tok ≠ n.tok) :
    msgTokChanged fn o.tok n.tok ∈ compareFileEntries fn o n := by
  unfold compareFileEntries
  rw [if_pos hne]
  simp

/-- C10: a previous-catalog file entry lacking the `ToK` field is read
as the empty classification string by the lookup conversion
(`file_entry.get('ToK', '')`) instead of failing, and the per-file
comparison against the current side then emits the classification
change message exactly when the current aggregated code string is
non-empty. -/
theorem legacy_missing_tok (fn : String) (fe : FileEntry) (n : FData)
    (h : fe.ToK = none) :
    (toFData fe).tok = "" ∧
    (msgTokChanged fn "" n.tok ∈ compareFileEntries fn (toFData fe) n ↔
      n.tok ≠ "") := by
  have htok : (toFData fe).tok = "" := by simp [toFData, h]
  refine ⟨htok, ?_⟩
  by_cases hne : n.tok = ""
  · constructor
    · intro hmem
      have hM := compareFileEntries_same_tok_heads fn (toFData fe) n
        (by rw [htok, hne]) _ hmem
      rw [msgTokChanged_head] at hM
      simp at hM
    · intro hn
      exact absurd hne hn
  · constructor
    · intro _
      exact hne
    · intro _
      have hmem := tok_msg_in_compareFileEntries fn (toFData fe) n
        (by rw [htok]; exact fun hh => hne hh.symm)
      rw [htok] at hmem
      exact hmem

/-- C10, witness: an old-format entry without `ToK` against a current
side whose aggregated code string is `"A B"`. -/
theorem legacy_missing_tok_witness :
    (toFData ⟨"report.pdf", none, []⟩).tok = "" ∧
    (msgTokChanged "report.pdf" "" "A B" ∈
        compareFileEntries "report.pdf" (toFData ⟨"report.pdf", none, []⟩)
          ⟨"A B", []⟩ ↔ ("A B" : String) ≠ "") :=
  legacy_missing_tok "report.pdf" ⟨"report.pdf", none, []⟩ ⟨"A B", []⟩ rfl

/-! ## C7 — prefix round-trip -/

/-- An alphanumeric character is not whitespace. -/
theorem alnum_not_space (c : Char) (h : isAlnumAscii c = true) :
    isSpaceChar c = false := by
  by_contra hs
  rw [Bool.not_eq_false] at hs
  simp only [isSpaceChar, Bool.or_eq_true, decide_eq_true_eq] at hs
  rcases hs with ((rfl | rfl) | rfl) | rfl <;> exact absurd h (by decide)

theorem pairsOf_cons (c : Char) (C : List Char) :
    pairsOf (c :: C) = c :: ' ' :: pairsOf C := rfl

theorem pairsOf_length : ∀ C : List Char, (pairsOf C).length = 2 * C.length
  | [] => rfl
  | c :: C => by
    rw [pairsOf_cons]
    simp only [List.length_cons, pairsOf_length C]
    ring

theorem spaceJoin_cons_head : ∀ (c : Char) (C : List Char),
    ∃ t, spaceJoin (c :: C) = c :: t
  | _, [] => ⟨[], rfl⟩
  | _, _ :: _ => ⟨_, rfl⟩

/-- A nonempty code written as pairs is its space-joined form plus the
trailing space. -/
theorem pairsOf_eq_spaceJoin_append : ∀ C : List Char, C ≠ [] →
    pairsOf C = spaceJoin C ++ [' ']
  | [], h => absurd rfl h
  | [c], _ => rfl
  | c1 :: c2 :: C, _ => by
    rw [pairsOf_cons, pairsOf_eq_spaceJoin_append (c2 :: C) (by simp)]
    rfl

/-- The space-joined form of a nonempty alphanumeric code ends in a
non-space character. -/
theorem spaceJoin_reverse_head : ∀ C : List Char,
    (∀ c ∈ C, isAlnumAscii c = true) → C ≠ [] →
    ∃ x X', (spaceJoin C).reverse = x :: X' ∧ isSpaceChar x = false
  | [], _, h => absurd rfl h
  | [c], h, _ => ⟨c, [], rfl, alnum_not_space c (h c (by simp))⟩
  | c1 :: c2 :: C, h, _ => by
    obtain ⟨x, X', hrev, hx⟩ := spaceJoin_reverse_head (c2 :: C)
      (fun c hc => h c (List.mem_cons_of_mem c1 hc)) (by simp)
    refine ⟨x, X' ++ [' ', c1], ?_, hx⟩
    show (c1 :: ' ' :: spaceJoin (c2 :: C)).reverse = x :: (X' ++ [' ', c1])
    rw [List.reverse_cons, List.reverse_cons, hrev]
    simp

/-- Stripping the pair form of a nonempty alphanumeric code removes
exactly the trailing space. -/
theorem strip_pairsOf (C : List Char) (hC : ∀ c ∈ C, isAlnumAscii c = true)
    (hne : C ≠ []) : strip (pairsOf C) = spaceJoin C := by
  obtain ⟨c1, C', rfl⟩ : ∃ c1 C', C = c1 :: C' := by
    cases C with
    | nil => exact absurd rfl hne
    | cons a l => exact ⟨a, l, rfl⟩
  obtain ⟨t, ht⟩ := spaceJoin_cons_head c1 C'
  obtain ⟨x, X', hrev, hx⟩ := spaceJoin_reverse_head (c1 :: C') hC (by simp)
  have h1 : isSpaceChar c1 = false := alnum_not_space _ (hC c1 (by simp))
  unfold strip
  rw [pairsOf_eq_spaceJoin_append _ (by simp)]
  have hfront : List.dropWhile isSpaceChar (spaceJoin (c1 :: C') ++ [' ']) =
      spaceJoin (c1 :: C') ++ [' '] := by
    rw [ht, List.cons_append, List.dropWhile_cons, h1]
    simp
  rw [hfront, List.reverse_append, List.reverse_singleton,
    List.singleton_append, List.dropWhile_cons,
    show isSpaceChar ' ' = true from rfl]
  simp only [if_true]
  rw [hrev, List.dropWhile_cons, hx]
  simp only [Bool.false_eq_true, if_false]
  rw [← hrev, List.reverse_reverse]

theorem takePairs_cons_pair (c1 c2 : Char) (rest : List Char)
    (h : (isAlnumAscii c1 && decide (c2 = ' ')) = true) :
    takePairs (c1 :: c2 :: rest) =
      (c1 :: c2 :: (takePairs rest).1, (takePairs rest).2) := by
  obtain ⟨h1, h2⟩ := Bool.and_eq_true_iff.mp h
  have h2' : c2 = ' ' := of_decide_eq_true h2
  subst h2'
  simp [takePairs, h1]

theorem takePairs_cons_nopair (c1 c2 : Char) (rest : List Char)
    (h : (isAlnumAscii c1 && decide (c2 = ' ')) = false) :
    takePairs (c1 :: c2 :: rest) = ([], c1 :: c2 :: rest) := by
  have hprop : ¬(isAlnumAscii c1 = true ∧ c2 = ' ') := by
    intro hh
    rw [hh.1, hh.2] at h
    simp at h
  simp [takePairs, hprop]

theorem takePairs_not_pair : ∀ l : List Char, startsWithPair l = false →
    takePairs l = ([], l)
  | [], _ => rfl
  | [_], _ => rfl
  | c1 :: c2 :: rest, h => by
    simp only [startsWithPair] at h
    exact takePairs_cons_nopair c1 c2 rest h

/-- The matched run of `takePairs` is the pair form of an alphanumeric
code, the original splits into run plus rest, and the rest does not
start with another pair. -/
theorem takePairs_spec : ∀ l : List Char,
    ∃ C : List Char, (takePairs l).1 = pairsOf C ∧
      (∀ c ∈ C, isAlnumAscii c = true) ∧
      l = (takePairs l).1 ++ (takePairs l).2 ∧
      startsWithPair (takePairs l).2 = false
  | [] => ⟨[], rfl, by simp, rfl, rfl⟩
  | [c] => ⟨[], rfl, by simp, rfl, rfl⟩
  | c1 :: c2 :: rest => by
    by_cases hcond : (isAlnumAscii c1 && decide (c2 = ' ')) = true
    · obtain ⟨C, h1, h2, h3, h4⟩ := takePairs_spec rest
      have hc1 : isAlnumAscii c1 = true := (Bool.and_eq_true_iff.mp hcond).1
      have hc2 : c2 = ' ' := of_decide_eq_true (Bool.and_eq_true_iff.mp hcond).2
      subst hc2
      rw [takePairs_cons_pair c1 ' ' rest hcond]
      refine ⟨c1 :: C, ?_, ?_, ?_, h4⟩
      · rw [pairsOf_cons, ← h1]
      · intro c hc
        rcases List.mem_cons.mp hc with rfl | hc
        · exact hc1
        · exact h2 c hc
      · simpa using h3
    · rw [Bool.not_eq_true] at hcond
      rw [takePairs_cons_nopair c1 c2 rest hcond]
      exact ⟨[], rfl, by simp, rfl, by simpa [startsWithPair] using hcond⟩

/-- The pair matcher consumes exactly a leading pair run when what
follows does not begin with another pair. -/
theorem takePairs_pairsOf_append : ∀ (C B : List Char),
    (∀ c ∈ C, isAlnumAscii c = true) → startsWithPair B = false →
    takePairs (pairsOf C ++ B) = (pairsOf C, B)
  | [], B, _, hB => by
    simpa [pairsOf] using takePairs_not_pair B hB
  | c :: C, B, hC, hB => by
    rw [pairsOf_cons]
    have hc : isAlnumAscii c = true := hC c (by simp)
    have hcond : (isAlnumAscii c && decide ((' ' : Char) = ' ')) = true := by
      simp [hc]
    rw [List.cons_append, List.cons_append, takePairs_cons_pair c ' ' _ hcond,
      takePairs_pairsOf_append C B (fun x hx => hC x (List.mem_cons_of_mem c hx)) hB]

/-- Removing the spaces of a space-joined alphanumeric code recovers
the code. -/
theorem filter_spaceJoin : ∀ C : List Char,
    (∀ c ∈ C, isAlnumAscii c = true) →
    (spaceJoin C).filter (fun c => decide (¬ c = ' ')) = C
  | [], _ => rfl
  | [c], h => by
    have hs : isSpaceChar c = false := alnum_not_space c (h c (by simp))
    have hc : ¬ c = ' ' := by
      intro hh
      rw [hh] at hs
      simp [isSpaceChar] at hs
    simp [spaceJoin, List.filter, hc]
  | c1 :: c2 :: C, h => by
    have hs : isSpaceChar c1 = false := alnum_not_space c1 (h c1 (by simp))
    have hc : ¬ c1 = ' ' := by
      intro hh
      rw [hh] at hs
      simp [isSpaceChar] at hs
    show List.filter _ (c1 :: ' ' :: spaceJoin (c2 :: C)) = _
    rw [List.filter_cons, List.filter_cons, if_pos (by simp [hc]),
      if_neg (by simp),
      filter_spaceJoin (c2 :: C) (fun x hx => h x (List.mem_cons_of_mem c1 hx))]

theorem strip_cons_space (r : List Char) : strip (' ' :: r) = strip r := rfl

/-- Inversion of a successful `matches_pattern`: the filename splits
into the pair run of an alphanumeric code of length at least two and a
rest that does not begin with another pair; the returned prefix is the
space-joined code and the base filename is the stripped rest. -/
theorem matches_pattern_inv (f P : String) (hP : matches_pattern f = some P) :
    ∃ C rest, f.data = pairsOf C ++ rest ∧ (∀ c ∈ C, isAlnumAscii c = true) ∧
      2 ≤ C.length ∧ startsWithPair rest = false ∧
      P = String.mk (spaceJoin C) ∧
      baseAfterPattern f P = String.mk (strip rest) := by
  unfold matches_pattern at hP
  dsimp only at hP
  obtain ⟨C, h1, h2, h3, h4⟩ := takePairs_spec f.data
  split at hP
  case isFalse => exact absurd hP (by simp)
  case isTrue hlen =>
    have hPeq : P = String.mk (strip (takePairs f.data).1) :=
      (Option.some.inj hP).symm
    rw [h1] at hlen hPeq
    rw [pairsOf_length] at hlen
    have hClen : 2 ≤ C.length := by omega
    have hCne : C ≠ [] := by
      intro h
      rw [h] at hClen
      simp at hClen
    rw [strip_pairsOf C h2 hCne] at hPeq
    refine ⟨C, (takePairs f.data).2, ?_, h2, hClen, h4, hPeq, ?_⟩
    · rw [← h1]
      exact h3
    · unfold baseAfterPattern
      have hdrop : f.data.drop P.length = ' ' :: (takePairs f.data).2 := by
        have hPlen : P.length = (spaceJoin C).length := by rw [hPeq]; rfl
        have hfd : f.data = spaceJoin C ++ (' ' :: (takePairs f.data).2) := by
          conv_lhs => rw [h3]
          rw [h1, pairsOf_eq_spaceJoin_append C hCne]
          simp
        rw [hPlen]
        conv_lhs => rw [hfd]
        exact List.drop_left _ _
      rw [hdrop, strip_cons_space]

/-- C7, counterexample: for the filename `"A B x.pdf"` (which matches
the prefix grammar), `matches_pattern` returns the code `"A B"` with
its separator space; re-formatting that returned code by inserting a
space after every character (`' '.join + ' '`) yields `"A   B "`, and
the reassembled filename `"A   B x.pdf"` has no parsable prefix at all
(`none`), so the round trip does not reproduce the same code. -/
theorem roundtrip_fails_on_spaced_code :
    matches_pattern "A B x.pdf" = some "A B" ∧
    baseAfterPattern "A B x.pdf" "A B" = "x.pdf" ∧
    formatted_code "A B" = "A   B " ∧
    matches_pattern (formatted_code "A B" ++ "x.pdf") = none ∧
    (none : Option String) ≠ some "A B" := by
  refine ⟨by decide, by decide, by decide, by decide, by decide⟩

/-- C7, amended: for every filename matching the prefix grammar, taking
the code returned by `matches_pattern`, removing its separator spaces
(the space-free classification code), re-formatting it by inserting a
single space after every character including a trailing space, and
concatenating it directly before the returned base filename produces a
filename whose prefix parses back to the same returned code — provided
the base filename does not itself begin with an alphanumeric character
followed by a space (in which case the parse would extend the prefix
into the base). -/
theorem matches_pattern_roundtrip_spacefree (f P : String)
    (hP : matches_pattern f = some P)
    (hB : startsWithPair (baseAfterPattern f P).data = false) :
    matches_pattern (formatted_code (removeSpaces P) ++ baseAfterPattern f P)
      = some P := by
  obtain ⟨C, rest, hf, hC, hlen, hrest, hPeq, hbase⟩ := matches_pattern_inv f P hP
  have hCne : C ≠ [] := by
    intro h
    rw [h] at hlen
    simp at hlen
  have hrs : removeSpaces P = String.mk C := by
    rw [hPeq]
    unfold removeSpaces
    congr 1
    exact filter_spaceJoin C hC
  have hg : (formatted_code (removeSpaces P) ++ baseAfterPattern f P).data
      = pairsOf C ++ strip rest := by
    rw [hrs, hbase]
    show (String.mk (spaceJoin C) ++ " " ++ String.mk (strip rest)).data = _
    rw [String.data_append, String.data_append]
    show spaceJoin C ++ [' '] ++ strip rest = _
    rw [← pairsOf_eq_spaceJoin_append C hCne]
  have hBs : startsWithPair (strip rest) = false := by
    rw [hbase] at hB
    exact hB
  unfold matches_pattern
  rw [hg, takePairs_pairsOf_append C (strip rest) hC hBs]
  simp only
  rw [if_pos (by rw [pairsOf_length]; omega)]
  rw [strip_pairsOf C hC hCne, ← hPeq]

/-- C7, witness for the amended round trip on `"A B x.pdf"`. -/
theorem matches_pattern_roundtrip_witness :
    matches_pattern
        (formatted_code (removeSpaces "A B") ++
          baseAfterPattern "A B x.pdf" "A B")
      = some "A B" :=
  matches_pattern_roundtrip_spacefree "A B x.pdf" "A B" (by decide) (by decide)

/-! ## C5 — diff reflexivity -/

/-- A flat map over elements that all produce nothing is empty. -/
theorem flatMap_nil {α β : Type} (f : α → List β) :
    ∀ l : List α, (∀ x ∈ l, f x = []) → l.flatMap f = []
  | [], _ => rfl
  | a :: l, h => by
    simp only [List.flatMap_cons, h a (by simp), List.nil_append]
    exact flatMap_nil f l (fun x hx => h x (by simp [hx]))

/-- Looking a key of the dictionary up succeeds. -/
theorem alookup_isSome_of_mem_keys {κ ν : Type} [DecidableEq κ] (k : κ) :
    ∀ d : List (κ × ν), k ∈ keysOf d → (alookup k d).isSome = true
  | [], h => by simp [keysOf] at h
  | (k', v') :: rest, h => by
    unfold alookup
    by_cases hk : k' = k
    · simp [hk]
    · simp only [hk, if_false]
      apply alookup_isSome_of_mem_keys k rest
      simp only [keysOf, List.map_cons, List.mem_cons] at h
      rcases h with h | h
      · exact absurd h.symm hk
      · exact h

/-- The set difference of a folder list with itself is empty. -/
theorem folderDiff_self (a : List String) : folderDiff a a = [] := by
  unfold folderDiff
  rw [List.filter_eq_nil_iff]
  intro f hf
  have hfa : f ∈ a := List.mem_dedup.mp hf
  simp [hfa]

/-- The per-file comparison of identical file data emits nothing,
given per-folder consistent dates (the first matching location found
for a folder then carries the same dates as any location in that
folder). -/
theorem compareFileEntries_self (fn : String) (fd : FData)
    (h : ∀ l1 ∈ fd.locations, ∀ l2 ∈ fd.locations,
      l1.folder = l2.folder → l1.created = l2.created ∧ l1.modified = l2.modified) :
    compareFileEntries fn fd fd = [] := by
  unfold compareFileEntries
  dsimp only
  rw [if_neg (by simp), folderDiff_self]
  simp only [List.map_nil, List.nil_append, List.append_nil]
  apply flatMap_nil
  intro loc hloc
  rw [if_pos (List.mem_map.mpr ⟨loc, hloc, rfl⟩)]
  cases hfind : fd.locations.find? (fun l => l.folder = loc.folder) with
  | none => rfl
  | some ol =>
    have holmem : ol ∈ fd.locations := List.mem_of_find?_eq_some hfind
    have holf : ol.folder = loc.folder := by
      have := List.find?_some hfind
      simpa using this
    obtain ⟨hc, hm⟩ := h loc hloc ol holmem holf.symm
    show (if loc.created ≠ ol.created ∨ loc.modified ≠ ol.modified
        then [msgModified fn loc.folder] else []) = []
    rw [if_neg (by simp [hc, hm])]

/-- Looking up in a dictionary after an assignment. -/
theorem alookup_dictInsert {κ ν : Type} [DecidableEq κ] (k k' : κ) (v : ν) :
    ∀ d : List (κ × ν), alookup k (dictInsert k' v d) =
      if k' = k then some v else alookup k d
  | [] => by
    unfold dictInsert alookup
    by_cases h : k' = k <;> simp [h, alookup]
  | (a, b) :: rest => by
    unfold dictInsert
    by_cases h : a = k'
    · subst h
      unfold alookup
      by_cases h2 : a = k <;> simp [h2, alookup]
    · simp only [h, if_false]
      unfold alookup
      by_cases h2 : a = k
      · subst h2
        have : ¬ k' = a := fun hh => h hh.symm
        simp [this]
      · simp only [h2, if_false]
        exact alookup_dictInsert k k' v rest

/-- An assignment preserves a property holding of every stored
value. -/
theorem lookupAll_dictInsert {κ ν : Type} [DecidableEq κ] (P : ν → Prop)
    (k : κ) (v : ν) (d : List (κ × ν))
    (hd : ∀ k2 v2, alookup k2 d = some v2 → P v2) (hv : P v) :
    ∀ k2 v2, alookup k2 (dictInsert k v d) = some v2 → P v2 := by
  intro k2 v2 h
  rw [alookup_dictInsert] at h
  split at h
  · cases h
    exact hv
  · exact hd k2 v2 h

/-- Every per-file value stored by `buildLookup` has per-folder
consistent dates when the source document does. -/
theorem buildLookup_values (j : List SizeGroup) (h : ConsistentFolderDates j) :
    ∀ s files, alookup s (buildLookup j) = some files →
      ∀ fn fd, alookup fn files = some fd →
        ∀ l1 ∈ fd.locations, ∀ l2 ∈ fd.locations, l1.folder = l2.folder →
          l1.created = l2.created ∧ l1.modified = l2.modified := by
  unfold buildLookup
  refine foldl_invariant _
    (fun acc : List (Nat × List (String × FData)) =>
      ∀ s files, alookup s acc = some files →
        ∀ fn fd, alookup fn files = some fd →
          ∀ l1 ∈ fd.locations, ∀ l2 ∈ fd.locations, l1.folder = l2.folder →
            l1.created = l2.created ∧ l1.modified = l2.modified) j [] ?_ ?_
  · intro s files h0
    simp [alookup] at h0
  · intro acc sg hsg hacc
    intro s files hs
    rw [alookup_dictInsert] at hs
    split at hs
    · cases hs
      refine foldl_invariant _
        (fun m : List (String × FData) =>
          ∀ fn fd, alookup fn m = some fd →
            ∀ l1 ∈ fd.locations, ∀ l2 ∈ fd.locations, l1.folder = l2.folder →
              l1.created = l2.created ∧ l1.modified = l2.modified)
        sg.files [] ?_ ?_
      · intro fn fd h0
        simp [alookup] at h0
      · intro m fe hfe hm
        exact lookupAll_dictInsert _ _ _ m hm
          (fun l1 hl1 l2 hl2 hf => h sg hsg fe hfe l1 hl1 l2 hl2 hf)
    · exact hacc s files hs

/-- No key of a dictionary fails to look up. -/
theorem filter_isNone_keys {κ ν : Type} [DecidableEq κ]
    (d : List (κ × ν)) :
    (keysOf d).filter (fun k => (alookup k d).isNone) = [] := by
  rw [List.filter_eq_nil_iff]
  intro k hk
  have hsome := alookup_isSome_of_mem_keys k d hk
  cases halo : alookup k d with
  | none => rw [halo] at hsome; simp at hsome
  | some v => simp [halo]

/-- Comparing a size group's file dictionary with itself emits
nothing, given per-folder consistent dates in its values. -/
theorem compareCommonSize_self (s : Nat) (files : List (String × FData))
    (hvals : ∀ fn fd, alookup fn files = some fd →
      ∀ l1 ∈ fd.locations, ∀ l2 ∈ fd.locations, l1.folder = l2.folder →
        l1.created = l2.created ∧ l1.modified = l2.modified) :
    compareCommonSize s files files = [] := by
  unfold compareCommonSize
  rw [filter_isNone_keys]
  simp only [List.flatMap_nil, List.nil_append]
  apply flatMap_nil
  intro fn hfn
  cases halo : alookup fn files with
  | none => rfl
  | some fd => exact compareFileEntries_self fn fd (hvals fn fd halo)

/-- C5, counterexample: a scan with two same-size files in one folder
whose base filenames coincide but whose dates differ —
`"A B report.pdf"` and `"X Y report.pdf"` in folder `f` — compared
against its own persisted form yields a spurious `MODIFIED` difference
and `has_changes = true`, because the date check pairs each location
with the FIRST location found in the same folder. -/
theorem compare_self_modified_cex :
    compare_pdf_scans (some (create_json_output scanSameFolder true))
        scanSameFolder true =
      ⟨true, ["MODIFIED: report.pdf in f - dates changed"]⟩ := by
  decide

/-- C5, amended: comparing the persisted form of a scan with the same
scan yields an empty difference sequence and `has_changes = false`,
provided no file entry of the catalog has two locations in the same
folder with different created/modified timestamps. -/
theorem compare_self_no_changes (d : PdfDict) (b : Bool)
    (h : ConsistentFolderDates (create_json_output d b)) :
    compare_pdf_scans (some (create_json_output d b)) d b = ⟨false, []⟩ := by
  unfold compare_pdf_scans
  dsimp only
  rw [filter_isNone_keys]
  simp only [List.flatMap_nil, List.nil_append]
  have hpart3 : ((keysOf (buildLookup (create_json_output d b))).filter
      (fun s => (alookup s (buildLookup (create_json_output d b))).isSome)).flatMap
      (fun s =>
        match alookup s (buildLookup (create_json_output d b)),
          alookup s (buildLookup (create_json_output d b)) with
        | some old_files, some new_files => compareCommonSize s old_files new_files
        | _, _ => []) = [] := by
    apply flatMap_nil
    intro s hs
    cases halo : alookup s (buildLookup (create_json_output d b)) with
    | none => rfl
    | some files =>
      exact compareCommonSize_self s files (buildLookup_values _ h s files halo)
  rw [hpart3]
  rfl

/-- C5, witness: the duplicate-detection scenario catalog compared with
its own scan. -/
theorem compare_self_no_changes_witness :
    compare_pdf_scans (some (create_json_output scanDup true)) scanDup true =
      ⟨false, []⟩ :=
  compare_self_no_changes scanDup true (by decide)



/-! ## C8 — ToK tree reconstruction -/

theorem treeCodes_node (code label : String) (ch : List TokTree) :
    treeCodes (.node code label ch) = code :: forestCodes ch := rfl

theorem forestCodes_cons (t : TokTree) (ts : List TokTree) :
    forestCodes (t :: ts) = treeCodes t ++ forestCodes ts := rfl

theorem forestCodes_append : ∀ (a b : List TokTree),
    forestCodes (a ++ b) = forestCodes a ++ forestCodes b
  | [], _ => rfl
  | t :: ts, b => by
    rw [List.cons_append, forestCodes_cons, forestCodes_cons,
      forestCodes_append ts b, List.append_assoc]

theorem pairsUnder_append (q : String) : ∀ (a b : List TokTree),
    pairsUnder q (a ++ b) = pairsUnder q a ++ pairsUnder q b
  | [], _ => rfl
  | t :: ts, b => by
    rw [List.cons_append]
    show (codeOfTree t, q) :: treePairs t ++ pairsUnder q (ts ++ b) = _
    rw [pairsUnder_append q ts b]
    show (codeOfTree t, q) :: (treePairs t ++ (pairsUnder q ts ++ pairsUnder q b)) =
      ((codeOfTree t, q) :: (treePairs t ++ pairsUnder q ts)) ++ pairsUnder q b
    simp

theorem forestPairs_cons (t : TokTree) (ts : List TokTree) :
    forestPairs (t :: ts) = treePairs t ++ forestPairs ts := rfl

theorem forestPairs_append : ∀ (a b : List TokTree),
    forestPairs (a ++ b) = forestPairs a ++ forestPairs b
  | [], _ => rfl
  | t :: ts, b => by
    rw [List.cons_append, forestPairs_cons, forestPairs_cons,
      forestPairs_append ts b, List.append_assoc]

theorem codeOfTree_addUnderTree (p : String) (c : TokTree) (t : TokTree) :
    codeOfTree (addUnderTree p c t) = codeOfTree t := by
  cases t with
  | node code label ch =>
    unfold addUnderTree
    split <;> rfl

mutual

theorem addUnderTree_no_op : ∀ (p : String) (c : TokTree) (t : TokTree),
    p ∉ treeCodes t → addUnderTree p c t = t
  | p, c, .node code label children, h => by
    rw [treeCodes_node] at h
    unfold addUnderTree
    rw [if_neg (fun heq : code = p => h (heq ▸ List.mem_cons_self _ _)),
      addUnderForest_no_op p c children (fun hm => h (List.mem_cons_of_mem _ hm))]

theorem addUnderForest_no_op : ∀ (p : String) (c : TokTree) (f : List TokTree),
    p ∉ forestCodes f → addUnderForest p c f = f
  | _, _, [], _ => rfl
  | p, c, t :: ts, h => by
    rw [forestCodes_cons] at h
    unfold addUnderForest
    rw [addUnderTree_no_op p c t (fun hm => h (List.mem_append_left _ hm)),
      addUnderForest_no_op p c ts (fun hm => h (List.mem_append_right _ hm))]

end



theorem treePairs_node (code label : String) (ch : List TokTree) :
    treePairs (.node code label ch) = pairsUnder code ch := rfl

theorem pairsUnder_cons (q : String) (t : TokTree) (ts : List TokTree) :
    pairsUnder q (t :: ts) =
      (codeOfTree t, q) :: treePairs t ++ pairsUnder q ts := rfl

mutual

theorem treeCodes_addUnderTree : ∀ (p : String) (c : TokTree) (t : TokTree),
    (treeCodes t).Nodup → p ∈ treeCodes t →
    (treeCodes (addUnderTree p c t) : Multiset String) =
      (treeCodes t : Multiset String) + (treeCodes c : Multiset String)
  | p, c, .node code label ch, hnd, hp => by
    rw [treeCodes_node] at hnd hp
    by_cases heq : code = p
    · subst heq
      unfold addUnderTree
      rw [if_pos rfl, treeCodes_node, forestCodes_append]
      simp only [forestCodes_cons, List.append_nil, treeCodes_node,
        ← Multiset.cons_coe, ← Multiset.coe_add, ← Multiset.singleton_add]
      abel
    · unfold addUnderTree
      rw [if_neg heq, treeCodes_node, treeCodes_node]
      have hpch : p ∈ forestCodes ch := by
        rcases List.mem_cons.mp hp with h | h
        · exact absurd h.symm heq
        · exact h
      have ih := forestCodes_addUnderForest p c ch hnd.of_cons hpch
      simp only [← Multiset.cons_coe, ih]
      simp only [← Multiset.singleton_add]
      abel

theorem forestCodes_addUnderForest : ∀ (p : String) (c : TokTree) (f : List TokTree),
    (forestCodes f).Nodup → p ∈ forestCodes f →
    (forestCodes (addUnderForest p c f) : Multiset String) =
      (forestCodes f : Multiset String) + (treeCodes c : Multiset String)
  | p, c, [], _, hp => by simp [forestCodes] at hp
  | p, c, t :: ts, hnd, hp => by
    rw [forestCodes_cons] at hnd hp
    unfold addUnderForest
    rw [forestCodes_cons]
    obtain ⟨hnd1, hnd2, hdisj⟩ := List.nodup_append.mp hnd
    by_cases hin : p ∈ treeCodes t
    · have hnotts : p ∉ forestCodes ts := fun hmem => hdisj hin hmem
      rw [addUnderForest_no_op p c ts hnotts]
      have ih := treeCodes_addUnderTree p c t hnd1 hin
      simp only [forestCodes_cons, ← Multiset.coe_add, ih]
      abel
    · have hints : p ∈ forestCodes ts := (List.mem_append.mp hp).resolve_left hin
      rw [addUnderTree_no_op p c t hin]
      have ih := forestCodes_addUnderForest p c ts hnd2 hints
      simp only [forestCodes_cons, ← Multiset.coe_add, ih]
      abel

end



mutual

theorem treePairs_addUnderTree : ∀ (p : String) (c : TokTree) (t : TokTree),
    (treeCodes t).Nodup → p ∈ treeCodes t →
    (treePairs (addUnderTree p c t) : Multiset (String × String)) =
      (codeOfTree c, p) ::ₘ
        ((treePairs c : Multiset (String × String)) + (treePairs t : Multiset (String × String)))
  | p, c, .node code label ch, hnd, hp => by
    rw [treeCodes_node] at hnd hp
    by_cases heq : code = p
    · subst heq
      unfold addUnderTree
      rw [if_pos rfl, treePairs_node, pairsUnder_append, treePairs_node]
      simp only [pairsUnder_cons, pairsUnder, List.append_nil,
        ← Multiset.cons_coe, ← Multiset.coe_add, ← Multiset.singleton_add,
        Multiset.coe_nil]
      abel
    · unfold addUnderTree
      rw [if_neg heq, treePairs_node, treePairs_node]
      have hpch : p ∈ forestCodes ch := by
        rcases List.mem_cons.mp hp with h | h
        · exact absurd h.symm heq
        · exact h
      exact pairsUnder_addUnderForest code p c ch hnd.of_cons hpch

theorem pairsUnder_addUnderForest : ∀ (q p : String) (c : TokTree) (f : List TokTree),
    (forestCodes f).Nodup → p ∈ forestCodes f →
    (pairsUnder q (addUnderForest p c f) : Multiset (String × String)) =
      (codeOfTree c, p) ::ₘ
        ((treePairs c : Multiset (String × String)) + (pairsUnder q f : Multiset (String × String)))
  | q, p, c, [], _, hp => by simp [forestCodes] at hp
  | q, p, c, t :: ts, hnd, hp => by
    rw [forestCodes_cons] at hnd hp
    unfold addUnderForest
    rw [pairsUnder_cons, pairsUnder_cons, codeOfTree_addUnderTree]
    obtain ⟨hnd1, hnd2, hdisj⟩ := List.nodup_append.mp hnd
    by_cases hin : p ∈ treeCodes t
    · have hnotts : p ∉ forestCodes ts := fun hmem => hdisj hin hmem
      rw [addUnderForest_no_op p c ts hnotts]
      have ih := treePairs_addUnderTree p c t hnd1 hin
      simp only [← Multiset.cons_coe, ← Multiset.coe_add, ih,
        ← Multiset.singleton_add]
      abel
    · have hints : p ∈ forestCodes ts := (List.mem_append.mp hp).resolve_left hin
      rw [addUnderTree_no_op p c t hin]
      have ih := pairsUnder_addUnderForest q p c ts hnd2 hints
      simp only [← Multiset.cons_coe, ← Multiset.coe_add, ih,
        ← Multiset.singleton_add]
      abel

end

/-- The top-level codes are unchanged by an insertion below. -/
theorem rootCodes_addUnderForest (p : String) (c : TokTree) :
    ∀ f : List TokTree, rootCodes (addUnderForest p c f) = rootCodes f
  | [] => rfl
  | t :: ts => by
    unfold addUnderForest
    show codeOfTree (addUnderTree p c t) :: rootCodes (addUnderForest p c ts) = _
    rw [codeOfTree_addUnderTree, rootCodes_addUnderForest p c ts]
    rfl

theorem forestPairs_addUnderForest : ∀ (p : String) (c : TokTree) (f : List TokTree),
    (forestCodes f).Nodup → p ∈ forestCodes f →
    (forestPairs (addUnderForest p c f) : Multiset (String × String)) =
      (codeOfTree c, p) ::ₘ
        ((treePairs c : Multiset (String × String)) + (forestPairs f : Multiset (String × String)))
  | p, c, [], _, hp => by simp [forestCodes] at hp
  | p, c, t :: ts, hnd, hp => by
    rw [forestCodes_cons] at hnd hp
    unfold addUnderForest
    rw [forestPairs_cons, forestPairs_cons]
    obtain ⟨hnd1, hnd2, hdisj⟩ := List.nodup_append.mp hnd
    by_cases hin : p ∈ treeCodes t
    · have hnotts : p ∉ forestCodes ts := fun hmem => hdisj hin hmem
      rw [addUnderForest_no_op p c ts hnotts]
      have ih := treePairs_addUnderTree p c t hnd1 hin
      simp only [← Multiset.cons_coe, ← Multiset.coe_add, ih,
        ← Multiset.singleton_add]
      abel
    · have hints : p ∈ forestCodes ts := (List.mem_append.mp hp).resolve_left hin
      rw [addUnderTree_no_op p c t hin]
      have ih := forestPairs_addUnderForest p c ts hnd2 hints
      simp only [← Multiset.cons_coe, ← Multiset.coe_add, ih,
        ← Multiset.singleton_add]
      abel



theorem rulePairs_congr : ∀ (l s1 s2 : List String),
    (∀ x, x ∈ s1 ↔ x ∈ s2) → rulePairs s1 l = rulePairs s2 l
  | [], _, _, _ => rfl
  | c :: rest, s1, s2, h => by
    unfold rulePairs
    rw [rulePairs_congr rest (c :: s1) (c :: s2) (fun x => by simp [h x])]
    congr 1
    by_cases hc : 1 < c.length ∧ dropLastChar c ∈ s1
    · rw [if_pos hc, if_pos ⟨hc.1, (h _).mp hc.2⟩]
    · rw [if_neg hc, if_neg (fun hh => hc ⟨hh.1, (h _).mpr hh.2⟩)]

theorem ruleRoots_congr : ∀ (l s1 s2 : List String),
    (∀ x, x ∈ s1 ↔ x ∈ s2) → ruleRoots s1 l = ruleRoots s2 l
  | [], _, _, _ => rfl
  | c :: rest, s1, s2, h => by
    unfold ruleRoots
    rw [ruleRoots_congr rest (c :: s1) (c :: s2) (fun x => by simp [h x])]
    congr 1
    by_cases hc : 1 < c.length ∧ dropLastChar c ∈ s1
    · rw [if_pos hc, if_pos ⟨hc.1, (h _).mp hc.2⟩]
    · rw [if_neg hc, if_neg (fun hh => hc ⟨hh.1, (h _).mpr hh.2⟩)]

theorem rulePairs_cons (seen : List String) (c : String) (l : List String) :
    rulePairs seen (c :: l) =
      (if 1 < c.length ∧ dropLastChar c ∈ seen then [(c, dropLastChar c)]
       else []) ++ rulePairs (c :: seen) l := rfl

theorem ruleRoots_cons (seen : List String) (c : String) (l : List String) :
    ruleRoots seen (c :: l) =
      (if 1 < c.length ∧ dropLastChar c ∈ seen then [] else [c]) ++
        ruleRoots (c :: seen) l := rfl

/-- The specification of the `load_tok_codes` construction loop,
relative to an arbitrary starting forest: processed codes accumulate
into the forest, the child/parent pairs are exactly those of the
stated rule (as multisets), and the roots are exactly the codes the
rule leaves parentless, in order. -/
theorem build_loop_spec : ∀ (l : List TokEntry) (forest : List TokTree),
    (forestCodes forest ++ l.map TokEntry.code).Nodup →
    ((forestCodes (l.foldl (fun forest e =>
        let tree_item : TokTree := .node e.code e.string []
        if 1 < e.code.length ∧ dropLastChar e.code ∈ forestCodes forest then
          addUnderForest (dropLastChar e.code) tree_item forest
        else forest ++ [tree_item]) forest) : Multiset String) =
      ↑(forestCodes forest) + ↑(l.map TokEntry.code)) ∧
    ((forestPairs (l.foldl (fun forest e =>
        let tree_item : TokTree := .node e.code e.string []
        if 1 < e.code.length ∧ dropLastChar e.code ∈ forestCodes forest then
          addUnderForest (dropLastChar e.code) tree_item forest
        else forest ++ [tree_item]) forest) : Multiset (String × String)) =
      ↑(forestPairs forest) +
        ↑(rulePairs (forestCodes forest) (l.map TokEntry.code))) ∧
    (rootCodes (l.foldl (fun forest e =>
        let tree_item : TokTree := .node e.code e.string []
        if 1 < e.code.length ∧ dropLastChar e.code ∈ forestCodes forest then
          addUnderForest (dropLastChar e.code) tree_item forest
        else forest ++ [tree_item]) forest) =
      rootCodes forest ++ ruleRoots (forestCodes forest) (l.map TokEntry.code))
  | [], forest, _ => by
    simp [rulePairs, ruleRoots]
  | e :: rest, forest, hnd => by
    rw [List.foldl_cons]
    dsimp only
    by_cases hcond : 1 < e.code.length ∧ dropLastChar e.code ∈ forestCodes forest
    · rw [if_pos hcond]
      have hndf : (forestCodes forest).Nodup := (List.nodup_append.mp hnd).1
      have hcodes := forestCodes_addUnderForest (dropLastChar e.code)
        (.node e.code e.string []) forest hndf hcond.2
      have hperm : (forestCodes (addUnderForest (dropLastChar e.code)
          (.node e.code e.string []) forest)).Perm
          (forestCodes forest ++ [e.code]) := by
        rw [← Multiset.coe_eq_coe, ← Multiset.coe_add]
        exact hcodes
      have hmem : ∀ x, x ∈ forestCodes (addUnderForest (dropLastChar e.code)
          (.node e.code e.string []) forest) ↔ x ∈ e.code :: forestCodes forest := by
        intro x
        rw [hperm.mem_iff]
        simp [or_comm]
      have hnd2 : (forestCodes (addUnderForest (dropLastChar e.code)
          (.node e.code e.string []) forest) ++ rest.map TokEntry.code).Nodup := by
        refine ((hperm.append_right (rest.map TokEntry.code)).nodup_iff).mpr ?_
        have : forestCodes forest ++ [e.code] ++ rest.map TokEntry.code =
            forestCodes forest ++ (e.code :: rest.map TokEntry.code) := by
          simp
        rw [this]
        simpa using hnd
      obtain ⟨ihc, ihp, ihr⟩ := build_loop_spec rest _ hnd2
      refine ⟨?_, ?_, ?_⟩
      · rw [ihc, hcodes]
        simp only [treeCodes_node, forestCodes, List.map_cons,
          ← Multiset.cons_coe, ← Multiset.coe_add, ← Multiset.singleton_add,
          Multiset.coe_nil]
        abel
      · rw [ihp]
        have hpairs := forestPairs_addUnderForest (dropLastChar e.code)
          (.node e.code e.string []) forest hndf hcond.2
        rw [hpairs]
        rw [rulePairs_congr (rest.map TokEntry.code) _ _ hmem, List.map_cons,
          rulePairs_cons, if_pos hcond]
        simp only [treePairs_node, pairsUnder, codeOfTree, List.singleton_append,
          ← Multiset.cons_coe, ← Multiset.coe_add, ← Multiset.singleton_add,
          Multiset.coe_nil]
        abel
      · rw [ihr, rootCodes_addUnderForest,
          ruleRoots_congr (rest.map TokEntry.code) _ _ hmem, List.map_cons,
          ruleRoots_cons, if_pos hcond]
        simp
    · rw [if_neg hcond]
      have hfc : forestCodes (forest ++ [TokTree.node e.code e.string []]) =
          forestCodes forest ++ [e.code] := by
        rw [forestCodes_append]
        rfl
      have hmem : ∀ x, x ∈ forestCodes (forest ++ [TokTree.node e.code e.string []]) ↔
          x ∈ e.code :: forestCodes forest := by
        intro x
        rw [hfc]
        simp [or_comm]
      have hnd2 : (forestCodes (forest ++ [TokTree.node e.code e.string []]) ++
          rest.map TokEntry.code).Nodup := by
        rw [hfc]
        have : forestCodes forest ++ [e.code] ++ rest.map TokEntry.code =
            forestCodes forest ++ (e.code :: rest.map TokEntry.code) := by
          simp
        rw [this]
        simpa using hnd
      obtain ⟨ihc, ihp, ihr⟩ := build_loop_spec rest _ hnd2
      refine ⟨?_, ?_, ?_⟩
      · rw [ihc, hfc]
        simp only [List.map_cons, ← Multiset.cons_coe, ← Multiset.coe_add,
          ← Multiset.singleton_add, Multiset.coe_nil]
        abel
      · rw [ihp]
        have hfp : forestPairs (forest ++ [TokTree.node e.code e.string []]) =
            forestPairs forest := by
          rw [forestPairs_append]
          simp [forestPairs, treePairs_node, pairsUnder]
        rw [hfp, rulePairs_congr (rest.map TokEntry.code) _ _ hmem, List.map_cons,
          rulePairs_cons, if_neg hcond]
        simp
      · rw [ihr]
        have hroots : rootCodes (forest ++ [TokTree.node e.code e.string []]) =
            rootCodes forest ++ [e.code] := by
          unfold rootCodes
          simp [codeOfTree]
        rw [hroots, ruleRoots_congr (rest.map TokEntry.code) _ _ hmem, List.map_cons,
          ruleRoots_cons, if_neg hcond]
        simp



/-- C8: processing an entry list (with unique codes) in ascending
lexicographic order of code, the built forest's child/parent pairs are
exactly (as a multiset) those of the stated rule — an entry whose code
has length > 1 and whose code with the last character removed is
already placed becomes a child of exactly that node — and the roots
are exactly the entries the rule leaves parentless, in order; in
particular the entries {0, 01, 012} yield the single chain
0 → 01 → 012 and the single entry {01} with no "0" present yields the
single root "01". -/
theorem load_tok_codes_parent_rule (entries : List TokEntry)
    (hnd : (entries.map TokEntry.code).Nodup) :
    ((forestPairs (load_tok_codes entries) : Multiset (String × String)) =
      ↑(rulePairs []
        ((List.insertionSort (fun a b => pyLe a.code b.code = true) entries).map
          TokEntry.code))) ∧
    rootCodes (load_tok_codes entries) =
      ruleRoots []
        ((List.insertionSort (fun a b => pyLe a.code b.code = true) entries).map
          TokEntry.code) ∧
    load_tok_codes [⟨"0", "Root"⟩, ⟨"01", "Branch"⟩, ⟨"012", "Leaf"⟩] =
      [.node "0" "Root" [.node "01" "Branch" [.node "012" "Leaf" []]]] ∧
    load_tok_codes [⟨"01", "Orphan"⟩] = [.node "01" "Orphan" []] := by
  have hperm : ((List.insertionSort (fun a b => pyLe a.code b.code = true)
      entries).map TokEntry.code).Perm (entries.map TokEntry.code) :=
    (List.perm_insertionSort _ entries).map _
  have hsortnd : (forestCodes ([] : List TokTree) ++
      ((List.insertionSort (fun a b => pyLe a.code b.code = true) entries).map
        TokEntry.code)).Nodup := by
    show (([] : List String) ++ _).Nodup
    rw [List.nil_append]
    exact hperm.nodup_iff.mpr hnd
  obtain ⟨_, ihp, ihr⟩ := build_loop_spec
    (List.insertionSort (fun a b => pyLe a.code b.code = true) entries) [] hsortnd
  refine ⟨?_, ?_, rfl, rfl⟩
  · unfold load_tok_codes
    rw [ihp]
    simp [forestPairs, forestCodes]
  · unfold load_tok_codes
    rw [ihr]
    simp [rootCodes, forestCodes]

/-- C8, witness: the parent rule instantiated at the chain example. -/
theorem load_tok_codes_parent_rule_witness :
    ((forestPairs (load_tok_codes [⟨"0", "Root"⟩, ⟨"01", "Branch"⟩, ⟨"012", "Leaf"⟩]) :
        Multiset (String × String)) =
      ↑(rulePairs []
        ((List.insertionSort (fun a b => pyLe a.code b.code = true)
          [⟨"0", "Root"⟩, ⟨"01", "Branch"⟩, ⟨"012", "Leaf"⟩]).map TokEntry.code))) ∧
    rootCodes (load_tok_codes [⟨"0", "Root"⟩, ⟨"01", "Branch"⟩, ⟨"012", "Leaf"⟩]) =
      ruleRoots []
        ((List.insertionSort (fun a b => pyLe a.code b.code = true)
          [⟨"0", "Root"⟩, ⟨"01", "Branch"⟩, ⟨"012", "Leaf"⟩]).map TokEntry.code) ∧
    load_tok_codes [⟨"0", "Root"⟩, ⟨"01", "Branch"⟩, ⟨"012", "Leaf"⟩] =
      [.node "0" "Root" [.node "01" "Branch" [.node "012" "Leaf" []]]] ∧
    load_tok_codes [⟨"01", "Orphan"⟩] = [.node "01" "Orphan" []] :=
  load_tok_codes_parent_rule [⟨"0", "Root"⟩, ⟨"01", "Branch"⟩, ⟨"012", "Leaf"⟩]
    (by decide)

end PdfManager
